import Mathlib

/-!
Verification of hierarchy.py (population-communication-models).

This file gives a shallow embedding of the index/fold partitioning logic of
Stimulus.indices / Stimulus.get_indices, the result cache and merge layer of
Clusters.run_analysis / Clusters.merge_results / Clusters.build_param_str /
Clusters.load_results, the signal/noise power bookkeeping of
Clusters.__init__, and the noise-ratio filtering of Clusters.select_data,
together with theorems settling the specification claims about them.

Machine floats (numpy float64 values such as noise/signal powers) are
modelled by the type PFloat below: a rational magnitude plus IEEE special
values inf, -inf and nan, with division and comparison following IEEE
semantics (signed zero is not modelled; no claim depends on it).
-/

namespace Hierarchy

/-- Embedding of numpy.arange(a, b) for natural bounds: the list a, a+1, ..., b-1. -/
def npArange (a b : Nat) : List Nat := (List.range (b - a)).map (fun i => a + i)

/-- Cut a list into consecutive pieces of the given sizes (helper for arraySplit). -/
def chop {α : Type} : List α → List Nat → List (List α)
  | _, [] => []
  | l, s :: ss => l.take s :: chop (l.drop s) ss

/-- Piece sizes used by numpy.array_split: for a length-n array split into k parts,
the first n % k parts have size n / k + 1 and the remaining k - n % k parts have
size n / k. -/
def splitSizes (n k : Nat) : List Nat :=
  List.replicate (n % k) (n / k + 1) ++ List.replicate (k - n % k) (n / k)

/-- Embedding of numpy.array_split(l, k): k consecutive, nearly equal pieces of l. -/
def arraySplit {α : Type} (l : List α) (k : Nat) : List (List α) :=
  chop l (splitSizes l.length k)

/-- Embedding of Stimulus.get_indices for k_folds equal to the string all_train
(hierarchy.py lines 182-183): the whole subset is the training set. -/
def getIndicesAllTrain (idxes : List Nat) : List (List Nat × List Nat) := [(idxes, [])]

/-- Embedding of Stimulus.get_indices for k_folds None or 1 (hierarchy.py lines
185-187): split into 10 parts, train on splits[:-1], test on splits[-1]. -/
def getIndicesSingle (idxes : List Nat) : List (List Nat × List Nat) :=
  let splits := arraySplit idxes 10
  [(splits.dropLast.flatten, splits.getLastD [])]

/-- Embedding of Stimulus.get_indices for an integer k_folds (hierarchy.py lines
189-196): splits = array_split(idxes, k_folds); fold i has test = splits[i] and
train = concatenate(splits[:i] + splits[i+1:]). -/
def getIndicesKFold (idxes : List Nat) (kf : Nat) : List (List Nat × List Nat) :=
  let splits := arraySplit idxes kf
  (List.range splits.length).map (fun i =>
    ((splits.take i ++ splits.drop (i + 1)).flatten, (splits.drop i).headD []))

/-- Embedding of idxes['all']['all'] for stim type 12 (hierarchy.py line 129). -/
def idxesAllAll : List Nat := npArange 0 6400

/-- Embedding of idxes['all']['lo'] for stim type 12 (hierarchy.py line 130). -/
def idxesAllLo : List Nat := npArange 0 1600 ++ npArange 3200 4800

/-- Embedding of idxes['all']['hi'] for stim type 12 (hierarchy.py line 131). -/
def idxesAllHi : List Nat := npArange 1600 3200 ++ npArange 4800 6400

/-- Embedding of idxes['valid20']['all'] for stim type 12 (hierarchy.py lines
135-136): the hard-coded ranges that drop the first 20 chords of each of the
four 1600-bin segments. -/
def idxesValid20All : List Nat :=
  npArange 20 1600 ++ npArange (1600 + 20) 3200 ++
    npArange (3200 + 20) 4800 ++ npArange (4800 + 20) 6400

/-- Embedding of numpy.intersect1d restricted to its set semantics: the elements
of a that also lie in b (for a sorted and duplicate-free a, as in hierarchy.py
lines 137-138, this is exactly numpy's sorted unique intersection). -/
def intersect1d (a b : List Nat) : List Nat := a.filter (fun x => decide (x ∈ b))

/-- Embedding of idxes['valid20']['lo'] for stim type 12 (hierarchy.py line 137). -/
def idxesValid20Lo : List Nat := intersect1d idxesValid20All idxesAllLo

/-- Embedding of idxes['valid20']['hi'] for stim type 12 (hierarchy.py line 138). -/
def idxesValid20Hi : List Nat := intersect1d idxesValid20All idxesAllHi

/-- Modelled from the spec: the concatenated t_bins_from_onset metadata for stim
type 12. The stimulus grids themselves live in a .mat data file that is not part
of the source tree; Stimulus.__init__ (hierarchy.py line 114) sets
t_bins_from_onset of each segment to arange(segment_length), and for stim type 12
there are four segments of 1600 time bins each (the hard-coded 6400-bin layout of
Stimulus.indices). -/
def tBinsFromOnset12 : List Nat := (List.replicate 4 (List.range 1600)).flatten

/-- Embedding of numpy.where(l >= c)[0] on a 1-d array: the positions whose value
is at least c. -/
def npWhereGe (l : List Nat) (c : Nat) : List Nat :=
  (List.range l.length).filter (fun i => decide (c ≤ l.getD i 0))

/-- Length of the per-job window of Clusters.run_analysis (hierarchy.py line 596):
segment_length = ceil(n_clusters / total_data_segments), as a natural-number
ceiling division. -/
def segLen (n s : Nat) : Nat := (n + s - 1) / s

/-- Window of cluster indices processed by Clusters.run_analysis for batch job
number seg of s (hierarchy.py lines 596-597 and 652): the Python slice
clusters[(seg-1)*segment_length : (seg-1)*segment_length + segment_length],
represented by the selected positions out of range n. -/
def segmentWindow (n s seg : Nat) : List Nat :=
  ((List.range n).drop ((seg - 1) * segLen n s)).take (segLen n s)

/-- Result entry as built by Clusters.apply_func_to_cluster (hierarchy.py lines
586-588): a dict holding the cluster's unique_id and the analysis payload. -/
structure ResEntry (α : Type) where
  uid : String
  payload : α
deriving DecidableEq

/-- Embedding of the per-cluster loop of Clusters.run_analysis in the single
results file branch (hierarchy.py lines 650-663): clusters whose unique_id is in
processedIds are skipped; otherwise the analysis f runs and, when it yields a
result, the entry is appended. The first component is the list of appended
entries, the second the unique_ids on which f was actually invoked. -/
def resumeLoop {α : Type} (processedIds : List String) (f : String → Option α) :
    List String → List (ResEntry α) × List String
  | [] => ([], [])
  | cid :: rest =>
    let tl := resumeLoop processedIds f rest
    if cid ∈ processedIds then tl
    else
      match f cid with
      | some r => (ResEntry.mk cid r :: tl.1, cid :: tl.2)
      | none => (tl.1, cid :: tl.2)

/-- Embedding of Clusters.run_analysis with save_results=True,
multiple_results_files=False, ignore_existing=False (hierarchy.py lines 637-668):
existing is the pickled result list loaded from disk, window the unique_ids of
the processed cluster slice, f the per-cluster analysis. Returns the result list
written back to disk and the unique_ids that were recomputed. -/
def runAnalysisResume {α : Type} (existing : List (ResEntry α)) (window : List String)
    (f : String → Option α) : List (ResEntry α) × List String :=
  let processedIds := existing.map ResEntry.uid
  let r := resumeLoop processedIds f window
  (existing ++ r.1, r.2)

/-- Lookup in a Python dict modelled as an insertion-ordered association list:
the value at the first binding of key k, if any. -/
def dictGet {V : Type} (d : List (String × V)) (k : String) : Option V :=
  (d.find? (fun p => decide (p.1 = k))).map Prod.snd

/-- Assignment d[k] = v on a Python dict modelled as an insertion-ordered
association list: replace the binding of k in place if present, else append. -/
def dictSet {V : Type} : List (String × V) → String → V → List (String × V)
  | [], k, v => [(k, v)]
  | p :: rest, k, v => if p.1 = k then (k, v) :: rest else p :: dictSet rest k v

/-- Key list of a modelled Python dict, in insertion order. -/
def dictKeys {V : Type} (d : List (String × V)) : List String := d.map Prod.fst

/-- Embedding of Python dict.update: assign every binding of e into d in order. -/
def dictUpdate {V : Type} (d e : List (String × V)) : List (String × V) :=
  e.foldl (fun acc p => dictSet acc p.1 p.2) d

/-- First field name of a result entry other than unique_id, as computed by
Clusters.merge_results (hierarchy.py line 748); none models the IndexError when
the entry has no such field. -/
def entryPayloadKey {V : Type} (e : List (String × V)) : Option String :=
  ((dictKeys e).filter (fun k => decide (k ≠ "unique_id"))).head?

/-- Payload value of a result entry: the value stored under its first
non-unique_id field. -/
def entryPayloadVal {V : Type} (e : List (String × V)) : Option V :=
  (entryPayloadKey e).bind (dictGet e)

/-- Embedding of the list comprehension unique_ids = [d['unique_id'] for d in
self.clusters] of Clusters.merge_results (hierarchy.py line 742); none models
the KeyError on a cluster without a unique_id field. -/
def collectUids {V : Type} : List (List (String × V)) → Option (List V)
  | [] => some []
  | c :: cs =>
    (dictGet c "unique_id").bind (fun u => (collectUids cs).map (fun us => u :: us))

/-- Embedding of one iteration of the merge loop of Clusters.merge_results
(hierarchy.py lines 745-751): locate the first cluster whose unique_id equals
the entry's unique_id in the fixed uids snapshot, then either store the entry's
payload under new_fieldname (nf = some fname) or dict-update the cluster with
the whole entry (nf = none). none models the ValueError/KeyError/IndexError
paths of the Python code. -/
def mergeOne {V : Type} [DecidableEq V] (uids : List V) (nf : Option String)
    (cs : List (List (String × V))) (e : List (String × V)) :
    Option (List (List (String × V))) :=
  (dictGet e "unique_id").bind (fun u =>
    (uids.findIdx? (fun x => decide (x = u))).bind (fun idx =>
      match nf with
      | some fname =>
        (entryPayloadKey e).bind (fun pk =>
          (dictGet e pk).map (fun v => cs.set idx (dictSet (cs.getD idx []) fname v)))
      | none => some (cs.set idx (dictUpdate (cs.getD idx []) e))))

/-- Fold of mergeOne over all result entries, with the uids snapshot fixed, as
in the loop of Clusters.merge_results. -/
def mergeFold {V : Type} [DecidableEq V] (uids : List V) (nf : Option String)
    (cs : List (List (String × V))) : List (List (String × V)) →
    Option (List (List (String × V)))
  | [] => some cs
  | e :: rest => (mergeOne uids nf cs e).bind (fun cs1 => mergeFold uids nf cs1 rest)

/-- Embedding of Clusters.merge_results on an in-memory result list (hierarchy.py
lines 742-752): snapshot the cluster unique_ids once, then merge every entry. -/
def mergeResults {V : Type} [DecidableEq V] (clusters entries : List (List (String × V)))
    (nf : Option String) : Option (List (List (String × V))) :=
  (collectUids clusters).bind (fun uids => mergeFold uids nf clusters entries)

/-- Parameter values that appear in analysis parameter dicts, with their Python
string rendering: strings, numbers, lists of numbers, and classes (rendered by
the last component of their dotted name, as in build_param_str's isclass case). -/
inductive PVal where
  | pstr (s : String)
  | pnat (n : Nat)
  | plist (l : List Nat)
  | pclass (s : String)
deriving DecidableEq

/-- Python rendering of a parameter value as used by Clusters.build_param_str
(hierarchy.py lines 479-484): classes render as the last component of their
name, lists join their items with a dash, everything else renders with str(). -/
def pvalStr : PVal → String
  | PVal.pstr s => s
  | PVal.pnat n => toString n
  | PVal.plist l => String.intercalate "-" (l.map (fun i => toString i))
  | PVal.pclass s => ((s.splitOn ".").getLastD s)

/-- Embedding of Clusters.build_param_str (hierarchy.py lines 474-485): the
analysis-parameter fingerprint, joining the function name and each
name=value rendering with a double dash. -/
def buildParamStr (funcName : String) (params : List (String × PVal)) : String :=
  String.intercalate "--" (funcName :: params.map (fun p => p.1 ++ "=" ++ pvalStr p.2))

/-- Strip the dot suffix of a file name, as pathlib's with_suffix does on the
final path component (for names that do not start with a dot). -/
def dropDotSuffix (name : String) : String :=
  let parts := name.splitOn "."
  if parts.length ≤ 1 then name else String.intercalate "." parts.dropLast

/-- Embedding of pathlib's Path.with_suffix on a path rendered as a string:
replace the dot suffix of the final component by suf. -/
def withSuffix (p suf : String) : String :=
  let comps := p.splitOn "/"
  String.intercalate "/" (comps.dropLast ++ [dropDotSuffix (comps.getLastD "") ++ suf])

/-- Results-file path computed by Clusters.run_analysis in the single results
file branch (hierarchy.py lines 627-629): Path(HIERARCHY_ROOT, 'results',
results_subdir, build_param_str(func, params)).with_suffix('.pkl'). -/
def runAnalysisResultsPath (root subdir funcName : String)
    (params : List (String × PVal)) : String :=
  let resultsDir := root ++ "/results/" ++ subdir
  let filename := buildParamStr funcName params
  withSuffix (resultsDir ++ "/" ++ filename) ".pkl"

/-- Results-file path computed by Clusters.load_results in the single results
file branch (hierarchy.py lines 782-785): the same Path expression, rebuilt
from func and params. -/
def loadResultsPath (root subdir funcName : String)
    (params : List (String × PVal)) : String :=
  let resultsDir := root ++ "/results/" ++ subdir
  let filename := buildParamStr funcName params
  withSuffix (resultsDir ++ "/" ++ filename) ".pkl"

/-- Model of a numpy float64: a rational magnitude or one of the IEEE special
values. Signed zero is not modelled. -/
inductive PFloat where
  | finite (q : ℚ)
  | inf
  | neginf
  | nan
deriving DecidableEq

/-- IEEE division on modelled float64 values, as numpy performs it (numpy emits
a warning on division by zero but returns inf, -inf or nan rather than raising):
x / 0 is nan for x = 0 and a signed infinity otherwise. -/
def pdiv : PFloat → PFloat → PFloat
  | PFloat.finite a, PFloat.finite b =>
    if b = 0 then (if a = 0 then PFloat.nan else if 0 < a then PFloat.inf else PFloat.neginf)
    else PFloat.finite (a / b)
  | PFloat.finite _, PFloat.inf => PFloat.finite 0
  | PFloat.finite _, PFloat.neginf => PFloat.finite 0
  | PFloat.inf, PFloat.finite b => if 0 ≤ b then PFloat.inf else PFloat.neginf
  | PFloat.neginf, PFloat.finite b => if 0 ≤ b then PFloat.neginf else PFloat.inf
  | _, _ => PFloat.nan

/-- IEEE NaN test on modelled float64 values (math.isnan). -/
def pisnan : PFloat → Bool
  | PFloat.nan => true
  | _ => false

/-- IEEE comparison x <= y on modelled float64 values: false whenever either
side is nan. -/
def ple : PFloat → PFloat → Bool
  | PFloat.nan, _ => false
  | _, PFloat.nan => false
  | PFloat.neginf, _ => true
  | PFloat.finite _, PFloat.neginf => false
  | PFloat.finite a, PFloat.finite b => decide (a ≤ b)
  | PFloat.finite _, PFloat.inf => true
  | PFloat.inf, PFloat.inf => true
  | PFloat.inf, _ => false

/-- Noise-ratio assignment of the optogenetic branch of Clusters.__init__
(hierarchy.py lines 365-370): guarded so that a zero signal power yields nan. -/
def nrOpto (sigPower noisePower : PFloat) : PFloat :=
  if sigPower = PFloat.finite 0 then PFloat.nan else pdiv noisePower sigPower

/-- Noise-ratio assignment of the non-optogenetic branch of Clusters.__init__
(hierarchy.py lines 385-386): the bare quotient noise_power / signal_power,
with no guard on a zero signal power. -/
def nrNonOpto (sigPower noisePower : PFloat) : PFloat := pdiv noisePower sigPower

/-- Argument accepted by the noiseratio keyword of Clusters.select_data: either
the literal string inf, or a float value (np.inf included). -/
inductive NRArg where
  | infStr
  | val (x : PFloat)
deriving DecidableEq

/-- Cluster as seen by the noiseratio filter of Clusters.select_data: its
unique_id together with its stored noiseratio value. -/
structure SCluster where
  uid : String
  nr : PFloat
deriving DecidableEq

/-- Embedding of the noiseratio branch of Clusters.select_data (hierarchy.py
lines 831-835): when the argument is the string inf or np.inf no filter is
applied; otherwise clusters with nan noiseratio are dropped, then clusters with
noiseratio above the threshold are dropped. -/
def selectDataNR (clusters : List SCluster) (v : NRArg) : List SCluster :=
  match v with
  | NRArg.infStr => clusters
  | NRArg.val x =>
    if x = PFloat.inf then clusters
    else (clusters.filter (fun c => ! pisnan c.nr)).filter (fun c => ple c.nr x)

/-! Helper lemmas. -/

theorem resumeLoop_invoked_not_processed {α : Type} (pids : List String)
    (f : String → Option α) :
    ∀ (window : List String) (cid : String),
      cid ∈ (resumeLoop pids f window).2 → cid ∉ pids := by
  intro window
  induction window with
  | nil => intro cid h; simp [resumeLoop] at h
  | cons c rest ih =>
    intro cid h
    simp only [resumeLoop] at h
    by_cases hc : c ∈ pids
    · rw [if_pos hc] at h
      exact ih cid h
    · rw [if_neg hc] at h
      cases hf : f c <;> rw [hf] at h <;> simp only [] at h
      · rcases List.mem_cons.mp h with rfl | h2
        · exact hc
        · exact ih cid h2
      · rcases List.mem_cons.mp h with rfl | h2
        · exact hc
        · exact ih cid h2

theorem segLen_pos (n s : Nat) (hn : 0 < n) (hs : 0 < s) : 0 < segLen n s := by
  unfold segLen
  exact Nat.div_pos (by omega) hs

theorem le_s_mul_segLen (n s : Nat) (hs : 0 < s) : n ≤ s * segLen n s := by
  unfold segLen
  have h := Nat.div_add_mod (n + s - 1) s
  have h2 : (n + s - 1) % s < s := Nat.mod_lt _ hs
  generalize hm : s * ((n + s - 1) / s) = m at h ⊢
  generalize hr : (n + s - 1) % s = r at h h2
  omega

theorem mem_segmentWindow_iff (n s seg i : Nat) :
    i ∈ segmentWindow n s seg ↔
      (seg - 1) * segLen n s ≤ i ∧ i < (seg - 1) * segLen n s + segLen n s ∧ i < n := by
  unfold segmentWindow
  generalize hA : (seg - 1) * segLen n s = A
  generalize hL : segLen n s = L
  constructor
  · intro h
    rw [List.mem_iff_getElem?] at h
    obtain ⟨j, hj⟩ := h
    rw [List.getElem?_take] at hj
    by_cases hjL : j < L
    · rw [if_pos hjL, List.getElem?_drop] at hj
      by_cases hAj : A + j < n
      · rw [List.getElem?_range hAj] at hj
        have : A + j = i := by injection hj
        omega
      · rw [List.getElem?_eq_none (by simpa using not_lt.mp hAj)] at hj
        exact absurd hj (by simp)
    · rw [if_neg hjL] at hj
      exact absurd hj (by simp)
  · intro ⟨h1, h2, h3⟩
    rw [List.mem_iff_getElem?]
    refine ⟨i - A, ?_⟩
    rw [List.getElem?_take, if_pos (by omega), List.getElem?_drop]
    have hAi : A + (i - A) = i := by omega
    rw [hAi, List.getElem?_range h3]

theorem segmentWindow_disjoint_lt (n s seg1 seg2 : Nat) (h1 : 1 ≤ seg1)
    (h12 : seg1 < seg2) :
    (segmentWindow n s seg1).Disjoint (segmentWindow n s seg2) := by
  intro x hx1 hx2
  rw [mem_segmentWindow_iff] at hx1 hx2
  have e1 : seg1 * segLen n s = (seg1 - 1) * segLen n s + segLen n s := by
    conv_lhs => rw [show seg1 = (seg1 - 1) + 1 by omega]
    rw [Nat.succ_mul]
  have hle : seg1 * segLen n s ≤ (seg2 - 1) * segLen n s :=
    Nat.mul_le_mul_right _ (by omega)
  generalize hA : (seg1 - 1) * segLen n s = A at hx1 e1
  generalize hB : (seg2 - 1) * segLen n s = B at hx2 hle
  generalize hM : seg1 * segLen n s = M at e1 hle
  generalize hL : segLen n s = L at hx1 hx2 e1
  omega

/-! Claim theorems. -/

/-- C7: for every number of clusters n and total_data_segments s >= 1, the index
windows processed by Clusters.run_analysis for this_data_segment = 1..s are
pairwise disjoint and together cover all n clusters, so the distributed batch
jobs compute each per-unit analysis exactly once. -/
theorem runAnalysis_segments_partition (n s : Nat) (hs : 1 ≤ s) :
    (∀ seg1 seg2, 1 ≤ seg1 → seg1 ≤ s → 1 ≤ seg2 → seg2 ≤ s → seg1 ≠ seg2 →
      (segmentWindow n s seg1).Disjoint (segmentWindow n s seg2)) ∧
    (∀ i, i < n → ∃ seg, 1 ≤ seg ∧ seg ≤ s ∧ i ∈ segmentWindow n s seg) := by
  constructor
  · intro seg1 seg2 h1 _ h2 _ hne
    rcases Nat.lt_or_ge seg1 seg2 with h | h
    · exact segmentWindow_disjoint_lt n s seg1 seg2 h1 h
    · have h' : seg2 < seg1 := by omega
      exact (segmentWindow_disjoint_lt n s seg2 seg1 h2 h').symm
  · intro i hi
    have hn : 0 < n := by omega
    have hL : 0 < segLen n s := segLen_pos n s hn (by omega)
    have hd := Nat.div_add_mod i (segLen n s)
    have hm : i % segLen n s < segLen n s := Nat.mod_lt _ hL
    have hcov : n ≤ s * segLen n s := le_s_mul_segLen n s (by omega)
    have hds : i / segLen n s < s := by
      rw [Nat.div_lt_iff_lt_mul hL]
      generalize hM : s * segLen n s = M at hcov ⊢
      omega
    refine ⟨i / segLen n s + 1, Nat.le_add_left 1 _, by omega, ?_⟩
    rw [mem_segmentWindow_iff]
    have hsimp : i / segLen n s + 1 - 1 = i / segLen n s := Nat.add_sub_cancel _ _
    rw [hsimp, Nat.mul_comm]
    generalize hT : segLen n s * (i / segLen n s) = T at hd
    generalize hR : i % segLen n s = R at hd hm
    generalize hL2 : segLen n s = L at hm
    omega

/-- C7 witness: the three windows for 10 clusters over 3 batch jobs. -/
theorem runAnalysis_segments_partition_witness :
    (1 ≤ 3 ∧ segmentWindow 10 3 1 = [0, 1, 2, 3] ∧ segmentWindow 10 3 2 = [4, 5, 6, 7] ∧
      segmentWindow 10 3 3 = [8, 9]) ∧
    ((∀ seg1 seg2, 1 ≤ seg1 → seg1 ≤ 3 → 1 ≤ seg2 → seg2 ≤ 3 → seg1 ≠ seg2 →
      (segmentWindow 10 3 seg1).Disjoint (segmentWindow 10 3 seg2)) ∧
    (∀ i, i < 10 → ∃ seg, 1 ≤ seg ∧ seg ≤ 3 ∧ i ∈ segmentWindow 10 3 seg)) :=
  ⟨⟨by decide, by decide, by decide, by decide⟩,
    runAnalysis_segments_partition 10 3 (by decide)⟩

/-- C4: in the resumable single-results-file mode of Clusters.run_analysis
(save_results=True, multiple_results_files=False, ignore_existing=False), the
previously stored result entries are preserved unchanged as a prefix of the
result list written back to disk, and no cluster whose unique_id already
appears among the stored entries has its analysis function invoked again. -/
theorem runAnalysis_resume_no_recompute {α : Type} (existing : List (ResEntry α))
    (window : List String) (f : String → Option α) :
    (∃ newEntries, (runAnalysisResume existing window f).1 = existing ++ newEntries) ∧
    (∀ cid ∈ window, cid ∈ existing.map ResEntry.uid →
      cid ∉ (runAnalysisResume existing window f).2) := by
  constructor
  · exact ⟨(resumeLoop (existing.map ResEntry.uid) f window).1, rfl⟩
  · intro cid _ hproc hmem
    exact resumeLoop_invoked_not_processed (existing.map ResEntry.uid) f window cid hmem hproc

/-- C4 witness: one already-stored cluster u1 is kept and not recomputed while
the new cluster u2 is computed and appended. -/
theorem runAnalysis_resume_no_recompute_witness :
    ((runAnalysisResume [ResEntry.mk "u1" 5] ["u1", "u2"] (fun _ => some 7)).1 =
      [ResEntry.mk "u1" 5] ++ [ResEntry.mk "u2" 7] ∧
     (runAnalysisResume [ResEntry.mk "u1" 5] ["u1", "u2"] (fun _ => some 7)).2 = ["u2"]) ∧
    ("u1" ∈ ["u1", "u2"] ∧ "u1" ∈ [ResEntry.mk "u1" (5 : Nat)].map ResEntry.uid) ∧
    "u1" ∉ (runAnalysisResume [ResEntry.mk "u1" 5] ["u1", "u2"] (fun _ => some 7)).2 :=
  ⟨⟨by decide, by decide⟩, ⟨by decide, by decide⟩,
    (runAnalysis_resume_no_recompute [ResEntry.mk "u1" 5] ["u1", "u2"]
      (fun _ => some 7)).2 "u1" (by decide) (by decide)⟩

/-- C6: the analysis-parameter fingerprint is a pure function of the function
name and the parameter names/values, and Clusters.run_analysis and
Clusters.load_results derive the results-file path from it in the same way:
equal fingerprints address the same pickle file, which is the fingerprint under
the stimulus-type results subdirectory with suffix .pkl. -/
theorem paramStr_paths_agree (root subdir funcName : String)
    (p q : List (String × PVal)) (h : buildParamStr funcName p = buildParamStr funcName q) :
    runAnalysisResultsPath root subdir funcName p = loadResultsPath root subdir funcName q ∧
    runAnalysisResultsPath root subdir funcName p =
      withSuffix (root ++ "/results/" ++ subdir ++ "/" ++ buildParamStr funcName p) ".pkl" := by
  unfold runAnalysisResultsPath loadResultsPath
  rw [h]
  exact ⟨rfl, rfl⟩

/-- C6 witness: a save and a later load with the same func and params address
the same concrete file path. -/
theorem paramStr_paths_agree_witness :
    (buildParamStr "coch_kernel" [("n_h", PVal.pnat 13), ("regress", PVal.pstr "ElNet")] =
      "coch_kernel--n_h=13--regress=ElNet") ∧
    (runAnalysisResultsPath "ROOT" "stim-12" "coch_kernel"
        [("n_h", PVal.pnat 13), ("regress", PVal.pstr "ElNet")] =
      loadResultsPath "ROOT" "stim-12" "coch_kernel"
        [("n_h", PVal.pnat 13), ("regress", PVal.pstr "ElNet")] ∧
     runAnalysisResultsPath "ROOT" "stim-12" "coch_kernel"
        [("n_h", PVal.pnat 13), ("regress", PVal.pstr "ElNet")] =
      withSuffix ("ROOT" ++ "/results/" ++ "stim-12" ++ "/" ++
        buildParamStr "coch_kernel" [("n_h", PVal.pnat 13), ("regress", PVal.pstr "ElNet")])
        ".pkl") :=
  ⟨by decide,
    paramStr_paths_agree "ROOT" "stim-12" "coch_kernel" _ _ rfl⟩

/-- C8 counterexample: a non-optogenetic cluster with zero signal power and
positive noise power receives noiseratio inf (numpy IEEE division), not nan, so
the claim that the loader sets noiseratio to nan whenever signal_power is zero
is false for the non-optogenetic branch of Clusters.__init__ (line 386). -/
theorem nonOpto_zero_signal_not_nan :
    nrNonOpto (PFloat.finite 0) (PFloat.finite 1) = PFloat.inf ∧
    nrNonOpto (PFloat.finite 0) (PFloat.finite 1) ≠ PFloat.nan := by
  constructor <;> decide

/-- C8 amended: only the optogenetic branch of Clusters.__init__ guards the
noise-ratio computation, setting noiseratio to nan whenever signal_power is
zero; the non-optogenetic branch assigns the bare IEEE quotient
noise_power / signal_power, which at zero signal power yields inf for any
positive noise power (and nan only when the noise power is also zero). -/
theorem nr_guard_opto_only (sigPower noisePower : PFloat)
    (h : sigPower = PFloat.finite 0) :
    nrOpto sigPower noisePower = PFloat.nan ∧
    nrNonOpto sigPower noisePower = pdiv noisePower sigPower ∧
    (∀ q : ℚ, 0 < q → nrNonOpto (PFloat.finite 0) (PFloat.finite q) = PFloat.inf) ∧
    nrNonOpto (PFloat.finite 0) (PFloat.finite 0) = PFloat.nan := by
  subst h
  refine ⟨by simp [nrOpto], rfl, ?_, by decide⟩
  intro q hq
  simp [nrNonOpto, pdiv, hq.ne', not_lt_of_gt, hq]

/-- C8 amended witness: the guarded branch yields nan and the unguarded branch
yields inf at signal power zero, noise power one. -/
theorem nr_guard_opto_only_witness :
    (PFloat.finite 0 = PFloat.finite 0) ∧
    (nrOpto (PFloat.finite 0) (PFloat.finite 1) = PFloat.nan ∧
     nrNonOpto (PFloat.finite 0) (PFloat.finite 1) = pdiv (PFloat.finite 1) (PFloat.finite 0) ∧
     (∀ q : ℚ, 0 < q → nrNonOpto (PFloat.finite 0) (PFloat.finite q) = PFloat.inf) ∧
     nrNonOpto (PFloat.finite 0) (PFloat.finite 0) = PFloat.nan) :=
  ⟨rfl, nr_guard_opto_only (PFloat.finite 0) (PFloat.finite 1) rfl⟩

/-- C10: Clusters.select_data with keyword noiseratio: the string inf and
np.inf apply no filter at all (nan noiseratio clusters are kept), and any
other value keeps exactly the clusters whose noiseratio is not nan and is at
most the threshold. -/
theorem selectData_nr_correct (clusters : List SCluster) (x : PFloat)
    (hx : x ≠ PFloat.inf) :
    selectDataNR clusters NRArg.infStr = clusters ∧
    selectDataNR clusters (NRArg.val PFloat.inf) = clusters ∧
    selectDataNR clusters (NRArg.val x) =
      clusters.filter (fun c => (! pisnan c.nr) && ple c.nr x) := by
  refine ⟨rfl, by simp [selectDataNR], ?_⟩
  simp only [selectDataNR, if_neg hx]
  rw [List.filter_filter]
  exact List.filter_congr (fun a _ => Bool.and_comm _ _)

/-- C10 witness: with threshold 200, a nan-noiseratio cluster is dropped and a
finite small-noiseratio cluster is kept; with the string inf or np.inf both are
kept. -/
theorem selectData_nr_correct_witness :
    (PFloat.finite 200 ≠ PFloat.inf) ∧
    (selectDataNR [SCluster.mk "a" PFloat.nan, SCluster.mk "b" (PFloat.finite 3)]
        NRArg.infStr =
      [SCluster.mk "a" PFloat.nan, SCluster.mk "b" (PFloat.finite 3)] ∧
     selectDataNR [SCluster.mk "a" PFloat.nan, SCluster.mk "b" (PFloat.finite 3)]
        (NRArg.val PFloat.inf) =
      [SCluster.mk "a" PFloat.nan, SCluster.mk "b" (PFloat.finite 3)] ∧
     selectDataNR [SCluster.mk "a" PFloat.nan, SCluster.mk "b" (PFloat.finite 3)]
        (NRArg.val (PFloat.finite 200)) =
      ([SCluster.mk "a" PFloat.nan, SCluster.mk "b" (PFloat.finite 3)]).filter
        (fun c => (! pisnan c.nr) && ple c.nr (PFloat.finite 200))) :=
  ⟨by decide,
    selectData_nr_correct [SCluster.mk "a" PFloat.nan, SCluster.mk "b" (PFloat.finite 3)]
      (PFloat.finite 200) (by decide)⟩

/-! Helper lemmas for array_split and the fold partition. -/

theorem chop_flatten {α : Type} :
    ∀ (ss : List Nat) (l : List α), (chop l ss).flatten = l.take ss.sum := by
  intro ss
  induction ss with
  | nil => intro l; simp [chop]
  | cons s ss ih =>
    intro l
    simp only [chop, List.flatten_cons, List.sum_cons, ih]
    rw [List.take_add]

theorem chop_length {α : Type} :
    ∀ (ss : List Nat) (l : List α), (chop l ss).length = ss.length := by
  intro ss
  induction ss with
  | nil => intro l; simp [chop]
  | cons s ss ih => intro l; simp [chop, ih]

theorem sum_sizes_arith (q r k : Nat) (h2 : r < k) :
    r * (q + 1) + (k - r) * q = k * q + r := by
  obtain ⟨m, rfl⟩ : ∃ m, k = r + m := ⟨k - r, by omega⟩
  rw [Nat.add_sub_cancel_left]
  ring

theorem splitSizes_sum (n k : Nat) (hk : 0 < k) : (splitSizes n k).sum = n := by
  unfold splitSizes
  rw [List.sum_append, List.sum_replicate, List.sum_replicate, smul_eq_mul, smul_eq_mul]
  have h1 := Nat.div_add_mod n k
  have h2 : n % k < k := Nat.mod_lt _ hk
  rw [sum_sizes_arith (n / k) (n % k) k h2]
  exact h1

theorem splitSizes_length (n k : Nat) (hk : 0 < k) : (splitSizes n k).length = k := by
  unfold splitSizes
  rw [List.length_append, List.length_replicate, List.length_replicate]
  have : n % k < k := Nat.mod_lt _ hk
  omega

theorem arraySplit_flatten {α : Type} (l : List α) (k : Nat) (hk : 0 < k) :
    (arraySplit l k).flatten = l := by
  unfold arraySplit
  rw [chop_flatten, splitSizes_sum _ _ hk, List.take_length]

theorem arraySplit_length {α : Type} (l : List α) (k : Nat) (hk : 0 < k) :
    (arraySplit l k).length = k := by
  unfold arraySplit
  rw [chop_length, splitSizes_length _ _ hk]

theorem nodup_middle_disjoint {α : Type} {A B C : List α} (h : (A ++ (B ++ C)).Nodup) :
    (A ++ C).Disjoint B := by
  rw [List.nodup_append] at h
  obtain ⟨_, hBC, hAdisj⟩ := h
  rw [List.nodup_append] at hBC
  obtain ⟨_, _, hBdisj⟩ := hBC
  intro a ha hb
  rw [List.mem_append] at ha
  rcases ha with ha | ha
  · exact hAdisj ha (List.mem_append.mpr (Or.inl hb))
  · exact hBdisj hb ha

theorem flatten_decomp {α : Type} (splits : List (List α)) (i : Nat)
    (hi : i < splits.length) :
    splits.flatten = (splits.take i).flatten ++ (splits[i] ++ (splits.drop (i + 1)).flatten) := by
  conv_lhs => rw [← List.take_append_drop i splits]
  rw [List.flatten_append, List.drop_eq_getElem_cons hi, List.flatten_cons]

theorem drop_headD {α : Type} (l : List (List α)) (i : Nat) (hi : i < l.length) :
    (l.drop i).headD [] = l[i] := by
  rw [List.drop_eq_getElem_cons hi]
  rfl

theorem map_drop_headD {α : Type} (splits : List (List α)) :
    (List.range splits.length).map (fun i => (splits.drop i).headD []) = splits := by
  apply List.ext_getElem?
  intro j
  rw [List.getElem?_map]
  by_cases hj : j < splits.length
  · rw [List.getElem?_range hj, Option.map_some', drop_headD _ _ hj]
    exact (List.getElem?_eq_getElem hj).symm
  · rw [List.getElem?_eq_none (by simpa using not_lt.mp hj), Option.map_none']
    exact (List.getElem?_eq_none (not_lt.mp hj)).symm

theorem countP_mem_flatten_nodup {α : Type} [DecidableEq α] (x : α) :
    ∀ (L : List (List α)), L.flatten.Nodup → x ∈ L.flatten →
      L.countP (fun l => decide (x ∈ l)) = 1 := by
  intro L
  induction L with
  | nil => intro _ hx; simp at hx
  | cons l rest ih =>
    intro hnd hx
    rw [List.flatten_cons, List.nodup_append] at hnd
    obtain ⟨hl, hrest, hdisj⟩ := hnd
    rw [List.countP_cons]
    by_cases hxl : x ∈ l
    · have hz : rest.countP (fun l => decide (x ∈ l)) = 0 := by
        rw [List.countP_eq_zero]
        intro t ht
        simp only [decide_eq_true_eq]
        intro hxt
        exact hdisj hxl (List.mem_flatten.mpr ⟨t, ht, hxt⟩)
      simp [hz, hxl]
    · have hxr : x ∈ rest.flatten := by
        rw [List.flatten_cons, List.mem_append] at hx
        tauto
      simp [ih hrest hxr, hxl]

theorem kfold_tests_eq_splits (idxes : List Nat) (kf : Nat) :
    (getIndicesKFold idxes kf).map Prod.snd = arraySplit idxes kf := by
  simp only [getIndicesKFold, List.map_map]
  exact map_drop_headD _

/-- C1: for every duplicate-free index subset (as all subsets produced by
Stimulus.indices are) and every k_folds >= 2, every (train, test) pair built by
Stimulus.get_indices has an empty intersection between its train set and its
test set. -/
theorem kfold_no_overlap (idxes : List Nat) (kf : Nat) (hk : 2 ≤ kf)
    (hnd : idxes.Nodup) :
    ∀ p ∈ getIndicesKFold idxes kf, p.1.Disjoint p.2 := by
  intro p hp
  simp only [getIndicesKFold, List.mem_map, List.mem_range] at hp
  obtain ⟨i, hi, hpe⟩ := hp
  have hk1 : 0 < kf := by omega
  have hflat : (arraySplit idxes kf).flatten = idxes := arraySplit_flatten _ _ hk1
  have hnd2 : (arraySplit idxes kf).flatten.Nodup := by rw [hflat]; exact hnd
  rw [flatten_decomp (arraySplit idxes kf) i hi] at hnd2
  have hdisj := nodup_middle_disjoint hnd2
  rw [← hpe]
  simp only []
  rw [List.flatten_append, drop_headD _ _ hi]
  exact hdisj

/-- C1 witness: the 3-fold split of a concrete sorted subset. -/
theorem kfold_no_overlap_witness :
    (2 ≤ 3 ∧ ([2, 3, 5, 7, 11, 13, 17] : List Nat).Nodup) ∧
    ∀ p ∈ getIndicesKFold [2, 3, 5, 7, 11, 13, 17] 3, p.1.Disjoint p.2 :=
  ⟨⟨by decide, by decide⟩, kfold_no_overlap [2, 3, 5, 7, 11, 13, 17] 3 (by decide) (by decide)⟩

/-- C2: for every sorted index subset and every k_folds >= 2, the concatenation
of the test sets of the folds built by Stimulus.get_indices is the subset
itself, hence its sorted concatenation is the subset, and each index lies in
exactly one test set. -/
theorem kfold_coverage (idxes : List Nat) (kf : Nat) (hk : 2 ≤ kf)
    (hsorted : List.Sorted (fun a b => a < b) idxes) :
    ((getIndicesKFold idxes kf).map Prod.snd).flatten = idxes ∧
    (((getIndicesKFold idxes kf).map Prod.snd).flatten).mergeSort
      (fun a b => decide (a ≤ b)) = idxes ∧
    ∀ x ∈ idxes, (getIndicesKFold idxes kf).countP (fun p => decide (x ∈ p.2)) = 1 := by
  have hk1 : 0 < kf := by omega
  have hflat : ((getIndicesKFold idxes kf).map Prod.snd).flatten = idxes := by
    rw [kfold_tests_eq_splits]
    exact arraySplit_flatten _ _ hk1
  refine ⟨hflat, ?_, ?_⟩
  · rw [hflat]
    exact List.mergeSort_eq_self (hsorted.imp le_of_lt)
  · intro x hx
    have hnd : idxes.Nodup := hsorted.nodup
    have h1 : (getIndicesKFold idxes kf).countP (fun p => decide (x ∈ p.2)) =
        ((getIndicesKFold idxes kf).map Prod.snd).countP (fun t => decide (x ∈ t)) := by
      rw [List.countP_map]
      rfl
    rw [h1, kfold_tests_eq_splits]
    apply countP_mem_flatten_nodup
    · rw [arraySplit_flatten _ _ hk1]; exact hnd
    · rw [arraySplit_flatten _ _ hk1]; exact hx

/-- C2 witness: the 3-fold split of a concrete sorted subset covers it exactly. -/
theorem kfold_coverage_witness :
    (2 ≤ 3 ∧ List.Sorted (fun a b => a < b) ([2, 3, 5, 7, 11, 13, 17] : List Nat)) ∧
    (((getIndicesKFold [2, 3, 5, 7, 11, 13, 17] 3).map Prod.snd).flatten =
        [2, 3, 5, 7, 11, 13, 17] ∧
     (((getIndicesKFold [2, 3, 5, 7, 11, 13, 17] 3).map Prod.snd).flatten).mergeSort
        (fun a b => decide (a ≤ b)) = [2, 3, 5, 7, 11, 13, 17] ∧
     ∀ x ∈ ([2, 3, 5, 7, 11, 13, 17] : List Nat),
       (getIndicesKFold [2, 3, 5, 7, 11, 13, 17] 3).countP
         (fun p => decide (x ∈ p.2)) = 1) :=
  ⟨⟨by decide, by decide⟩,
    kfold_coverage [2, 3, 5, 7, 11, 13, 17] 3 (by decide) (by decide)⟩

/-- C9: with k_folds None or 1, Stimulus.get_indices returns exactly one
(train, test) pair, obtained by splitting the subset into 10 consecutive nearly
equal parts, training on the concatenation of the first nine and testing on the
tenth; train and test are disjoint and their concatenation is the whole
subset. -/
theorem single_fold_correct (idxes : List Nat) (hnd : idxes.Nodup) :
    (getIndicesSingle idxes).length = 1 ∧
    (arraySplit idxes 10).length = 10 ∧
    ∃ tr te, getIndicesSingle idxes = [(tr, te)] ∧
      tr = ((arraySplit idxes 10).take 9).flatten ∧
      te = (arraySplit idxes 10).getLastD [] ∧
      tr.Disjoint te ∧ tr ++ te = idxes := by
  have hlen : (arraySplit idxes 10).length = 10 := arraySplit_length _ _ (by norm_num)
  have hne : arraySplit idxes 10 ≠ [] := by
    intro hcon
    rw [hcon] at hlen
    simp at hlen
  have htake : (arraySplit idxes 10).dropLast = (arraySplit idxes 10).take 9 := by
    rw [List.dropLast_eq_take, hlen]
  have happ : (arraySplit idxes 10).dropLast.flatten ++ (arraySplit idxes 10).getLastD [] =
      idxes := by
    conv_rhs => rw [← arraySplit_flatten idxes 10 (by norm_num)]
    conv_rhs => rw [← List.dropLast_append_getLast hne]
    rw [List.flatten_append, List.getLastD_eq_getLast?, List.getLast?_eq_getLast _ hne]
    simp
  refine ⟨rfl, hlen, (arraySplit idxes 10).dropLast.flatten,
    (arraySplit idxes 10).getLastD [], rfl, by rw [htake], rfl, ?_, happ⟩
  have hnd2 : ((arraySplit idxes 10).dropLast.flatten ++
      (arraySplit idxes 10).getLastD []).Nodup := by
    rw [happ]; exact hnd
  exact (List.nodup_append.mp hnd2).2.2

/-- C9 witness: the single fold of a concrete 12-element subset. -/
theorem single_fold_correct_witness :
    ([0, 1, 2, 3, 4, 5, 6, 7, 8, 9, 10, 11] : List Nat).Nodup ∧
    ((getIndicesSingle [0, 1, 2, 3, 4, 5, 6, 7, 8, 9, 10, 11]).length = 1 ∧
     (arraySplit ([0, 1, 2, 3, 4, 5, 6, 7, 8, 9, 10, 11] : List Nat) 10).length = 10 ∧
     ∃ tr te, getIndicesSingle [0, 1, 2, 3, 4, 5, 6, 7, 8, 9, 10, 11] = [(tr, te)] ∧
       tr = ((arraySplit ([0, 1, 2, 3, 4, 5, 6, 7, 8, 9, 10, 11] : List Nat) 10).take 9).flatten ∧
       te = (arraySplit ([0, 1, 2, 3, 4, 5, 6, 7, 8, 9, 10, 11] : List Nat) 10).getLastD [] ∧
       tr.Disjoint te ∧ tr ++ te = [0, 1, 2, 3, 4, 5, 6, 7, 8, 9, 10, 11]) :=
  ⟨by decide, single_fold_correct [0, 1, 2, 3, 4, 5, 6, 7, 8, 9, 10, 11] (by decide)⟩

/-! Helper lemmas for the valid20 index subsets. -/

theorem npArange_eq_range' (a b : Nat) : npArange a b = List.range' a (b - a) := by
  unfold npArange
  rw [List.range'_eq_map_range]

theorem range'_split (s a n : Nat) (ha : a ≤ n) :
    List.range' s n = List.range' s a ++ List.range' (s + a) (n - a) := by
  have h := List.range'_append s a (n - a) 1
  rw [one_mul] at h
  rw [show n - a + a = n from by omega] at h
  exact h.symm

theorem filter_range'_mod_ge (k n a : Nat) (ha : a ≤ n) :
    (List.range' (k * n) n).filter (fun i => decide (a ≤ i % n)) =
      List.range' (k * n + a) (n - a) := by
  by_cases hn : 0 < n
  case neg =>
    have h0 : n = 0 := by omega
    subst h0
    simp
  rw [range'_split (k * n) a n ha, List.filter_append]
  have h1 : (List.range' (k * n) a).filter (fun i => decide (a ≤ i % n)) = [] := by
    rw [List.filter_eq_nil_iff]
    intro x hx
    rw [List.mem_range'] at hx
    obtain ⟨j, hj, rfl⟩ := hx
    have hmod : (k * n + 1 * j) % n = j := by
      rw [one_mul, Nat.add_comm, Nat.add_mul_mod_self_right]
      exact Nat.mod_eq_of_lt (by omega)
    simp only [hmod, decide_eq_true_eq]
    omega
  have h2 : (List.range' (k * n + a) (n - a)).filter (fun i => decide (a ≤ i % n)) =
      List.range' (k * n + a) (n - a) := by
    rw [List.filter_eq_self]
    intro x hx
    rw [List.mem_range'] at hx
    obtain ⟨j, hj, rfl⟩ := hx
    have he : k * n + a + 1 * j = (a + j) + k * n := by ring
    have hmod : (k * n + a + 1 * j) % n = a + j := by
      rw [he, Nat.add_mul_mod_self_right]
      exact Nat.mod_eq_of_lt (by omega)
    simp only [hmod, decide_eq_true_eq]
    omega
  rw [h1, h2, List.nil_append]

theorem valid20_eq_mod_filter :
    idxesValid20All = (List.range 6400).filter (fun i => decide (20 ≤ i % 1600)) := by
  have f0 : (List.range' 0 1600).filter (fun i => decide (20 ≤ i % 1600)) =
      List.range' 20 1580 := by
    have h := filter_range'_mod_ge 0 1600 20 (by norm_num)
    norm_num at h
    exact h
  have f1 : (List.range' 1600 1600).filter (fun i => decide (20 ≤ i % 1600)) =
      List.range' 1620 1580 := by
    have h := filter_range'_mod_ge 1 1600 20 (by norm_num)
    norm_num at h
    exact h
  have f2 : (List.range' 3200 1600).filter (fun i => decide (20 ≤ i % 1600)) =
      List.range' 3220 1580 := by
    have h := filter_range'_mod_ge 2 1600 20 (by norm_num)
    norm_num at h
    exact h
  have f3 : (List.range' 4800 1600).filter (fun i => decide (20 ≤ i % 1600)) =
      List.range' 4820 1580 := by
    have h := filter_range'_mod_ge 3 1600 20 (by norm_num)
    norm_num at h
    exact h
  have a1 : List.range' 3200 1600 ++ List.range' 4800 1600 = List.range' 3200 3200 := by
    have h := List.range'_append 3200 1600 1600 1
    norm_num at h
    exact h
  have a2 : List.range' 1600 1600 ++ List.range' 3200 3200 = List.range' 1600 4800 := by
    have h := List.range'_append 1600 1600 3200 1
    norm_num at h
    exact h
  have a3 : List.range' 0 1600 ++ List.range' 1600 4800 = List.range' 0 6400 := by
    have h := List.range'_append 0 1600 4800 1
    norm_num at h
    exact h
  have d1 : List.range 6400 = List.range' 0 1600 ++
      (List.range' 1600 1600 ++ (List.range' 3200 1600 ++ List.range' 4800 1600)) := by
    rw [List.range_eq_range', ← a3, ← a2, ← a1]
  rw [d1, List.filter_append, List.filter_append, List.filter_append, f0, f1, f2, f3]
  simp only [idxesValid20All, npArange_eq_range', List.append_assoc]

theorem flatten_replicate_range_getD :
    ∀ (m n i : Nat), 0 < n → i < m * n →
      ((List.replicate m (List.range n)).flatten).getD i 0 = i % n := by
  intro m
  induction m with
  | zero => intro n i _ hi; simp at hi
  | succ m ih =>
    intro n i hn hi
    rw [List.replicate_succ, List.flatten_cons]
    by_cases hin : i < n
    · rw [List.getD_append _ _ _ i (by simpa using hin)]
      rw [List.getD_eq_getElem?_getD, List.getElem?_range hin]
      simp [Nat.mod_eq_of_lt hin]
    · have hge : n ≤ i := le_of_not_lt hin
      rw [List.getD_append_right _ _ _ i (by simpa using hge), List.length_range]
      have hmul : (m + 1) * n = m * n + n := by rw [Nat.succ_mul]
      have hi2 : i - n < m * n := by omega
      rw [ih n (i - n) hn hi2]
      conv_rhs => rw [show i = (i - n) + n from by omega]
      rw [Nat.add_mod_right]

theorem tBins12_length : tBinsFromOnset12.length = 6400 := by
  unfold tBinsFromOnset12
  rw [List.length_flatten]
  simp

/-- C3: the hard-coded valid20 index subset of Stimulus.indices for stim type 12
equals both the set of indices below 6400 whose position within their 1600-bin
segment is at least 20, and the subset np.where(t_bins_from_onset >= 20)
computed from the segment metadata; its lo and hi variants are its
intersections with the low- and high-contrast subsets. -/
theorem valid20_characterization :
    idxesValid20All = (List.range 6400).filter (fun i => decide (20 ≤ i % 1600)) ∧
    idxesValid20All = npWhereGe tBinsFromOnset12 20 ∧
    (∀ i, i ∈ idxesValid20Lo ↔ i ∈ idxesValid20All ∧ i ∈ idxesAllLo) ∧
    (∀ i, i ∈ idxesValid20Hi ↔ i ∈ idxesValid20All ∧ i ∈ idxesAllHi) := by
  refine ⟨valid20_eq_mod_filter, ?_, ?_, ?_⟩
  · rw [valid20_eq_mod_filter]
    unfold npWhereGe
    rw [tBins12_length]
    apply List.filter_congr
    intro x hx
    rw [List.mem_range] at hx
    unfold tBinsFromOnset12
    rw [flatten_replicate_range_getD 4 1600 x (by norm_num) (by omega)]
  · intro i
    simp [idxesValid20Lo, intersect1d, List.mem_filter]
  · intro i
    simp [idxesValid20Hi, intersect1d, List.mem_filter]

/-! Helper lemmas for the merge layer. -/

theorem dictGet_dictSet_self {V : Type} (d : List (String × V)) (k : String) (v : V) :
    dictGet (dictSet d k v) k = some v := by
  induction d with
  | nil => simp [dictSet, dictGet]
  | cons p rest ih =>
    by_cases hp : p.1 = k
    · simp [dictSet, hp, dictGet]
    · simp only [dictSet, if_neg hp]
      unfold dictGet at ih ⊢
      rw [List.find?_cons, show (decide (p.1 = k)) = false from by simp [hp]]
      exact ih

theorem dictGet_dictSet_ne {V : Type} (d : List (String × V)) (k k' : String) (v : V)
    (h : k' ≠ k) : dictGet (dictSet d k v) k' = dictGet d k' := by
  induction d with
  | nil => simp [dictSet, dictGet, Ne.symm h]
  | cons p rest ih =>
    by_cases hp : p.1 = k
    · unfold dictGet
      simp only [dictSet, if_pos hp]
      rw [List.find?_cons, List.find?_cons]
      rw [show (decide ((k, v).1 = k')) = false from by simp [Ne.symm h]]
      rw [show (decide (p.1 = k')) = false from by simp [hp, Ne.symm h]]
    · unfold dictGet at ih ⊢
      simp only [dictSet, if_neg hp]
      rw [List.find?_cons, List.find?_cons]
      cases hp' : decide (p.1 = k') with
      | true => rfl
      | false => exact ih

theorem findIdx?_some_spec {α : Type} (p : α → Bool) :
    ∀ (l : List α) (s i : Nat), l.findIdx? p s = some i →
      ∃ j a, i = s + j ∧ l[j]? = some a ∧ p a = true := by
  intro l
  induction l with
  | nil => intro s i h; simp [List.findIdx?] at h
  | cons x xs ih =>
    intro s i h
    rw [List.findIdx?_cons] at h
    by_cases hx : p x = true
    · rw [if_pos hx] at h
      injection h with h
      exact ⟨0, x, by omega, by simp, hx⟩
    · rw [if_neg hx] at h
      obtain ⟨j, a, hji, hja, hpa⟩ := ih (s + 1) i h
      exact ⟨j + 1, a, by omega, by simpa using hja, hpa⟩

theorem findIdx?_nodup_getElem {α : Type} [DecidableEq α] :
    ∀ (l : List α) (j s : Nat) (u : α), l.Nodup → l[j]? = some u →
      l.findIdx? (fun x => decide (x = u)) s = some (s + j) := by
  intro l
  induction l with
  | nil => intro j s u _ h; simp at h
  | cons x xs ih =>
    intro j s u hnd h
    rw [List.findIdx?_cons]
    cases j with
    | zero =>
      rw [List.getElem?_cons_zero] at h
      injection h with h
      subst h
      simp
    | succ j =>
      rw [List.getElem?_cons_succ] at h
      have hne : x ≠ u := by
        intro hx
        subst hx
        exact (List.nodup_cons.mp hnd).1 (List.mem_iff_getElem?.mpr ⟨j, h⟩)
      rw [if_neg (by simp [hne])]
      rw [ih j (s + 1) u (List.nodup_cons.mp hnd).2 h]
      congr 1
      omega

theorem mergeOne_some_elim {V : Type} [DecidableEq V] (uids : List V) (nf : Option String)
    (cs : List (List (String × V))) (e : List (String × V))
    (cs1 : List (List (String × V))) (h : mergeOne uids nf cs e = some cs1) :
    ∃ u idx, dictGet e "unique_id" = some u ∧
      uids.findIdx? (fun x => decide (x = u)) = some idx ∧
      ((∃ fname pk v, nf = some fname ∧ entryPayloadKey e = some pk ∧
          dictGet e pk = some v ∧
          cs1 = cs.set idx (dictSet (cs.getD idx []) fname v)) ∨
       (nf = none ∧ cs1 = cs.set idx (dictUpdate (cs.getD idx []) e))) := by
  unfold mergeOne at h
  cases hu : dictGet e "unique_id" with
  | none => rw [hu, Option.none_bind] at h; exact Option.noConfusion h
  | some u =>
    rw [hu, Option.some_bind] at h
    cases hidx : uids.findIdx? (fun x => decide (x = u)) with
    | none => rw [hidx, Option.none_bind] at h; exact Option.noConfusion h
    | some idx =>
      rw [hidx, Option.some_bind] at h
      refine ⟨u, idx, rfl, hidx, ?_⟩
      cases nf with
      | some fname =>
        simp only [] at h
        cases hpk : entryPayloadKey e with
        | none => rw [hpk, Option.none_bind] at h; exact Option.noConfusion h
        | some pk =>
          rw [hpk, Option.some_bind] at h
          cases hv : dictGet e pk with
          | none => rw [hv, Option.map_none'] at h; exact Option.noConfusion h
          | some v =>
            rw [hv, Option.map_some'] at h
            injection h with h
            exact Or.inl ⟨fname, pk, v, rfl, rfl, hv, h.symm⟩
      | none =>
        simp only [] at h
        injection h with h
        exact Or.inr ⟨rfl, h.symm⟩

theorem mergeOne_length {V : Type} [DecidableEq V] {uids : List V} {nf : Option String}
    {cs : List (List (String × V))} {e : List (String × V)}
    {cs1 : List (List (String × V))} (h : mergeOne uids nf cs e = some cs1) :
    cs1.length = cs.length := by
  obtain ⟨u, idx, _, _, hshape⟩ := mergeOne_some_elim uids nf cs e cs1 h
  rcases hshape with ⟨f, pk, v, _, _, _, rfl⟩ | ⟨_, rfl⟩ <;> exact List.length_set _ _ _

theorem mergeOne_untouched {V : Type} [DecidableEq V] {uids : List V} {nf : Option String}
    {cs : List (List (String × V))} {e : List (String × V)}
    {cs1 : List (List (String × V))} {j : Nat} {w : V}
    (h : mergeOne uids nf cs e = some cs1) (hw : uids[j]? = some w)
    (hne : dictGet e "unique_id" ≠ some w) :
    cs1.getD j [] = cs.getD j [] := by
  obtain ⟨u, idx, hu, hidx, hshape⟩ := mergeOne_some_elim uids nf cs e cs1 h
  obtain ⟨j', a, hj', ha, hpa⟩ := findIdx?_some_spec _ uids 0 idx hidx
  have hau : a = u := of_decide_eq_true hpa
  subst hau
  have hidxj : idx ≠ j := by
    intro hcon
    have hj'2 : j' = j := by omega
    subst hj'2
    rw [hw] at ha
    injection ha with ha
    rw [← ha] at hu
    exact hne hu
  rcases hshape with ⟨f, pk, v, _, _, _, rfl⟩ | ⟨_, rfl⟩ <;>
    rw [List.getD_eq_getElem?_getD, List.getElem?_set_ne hidxj,
      ← List.getD_eq_getElem?_getD]

theorem mergeOne_frame {V : Type} [DecidableEq V] {uids : List V} {fname : String}
    {cs : List (List (String × V))} {e : List (String × V)}
    {cs1 : List (List (String × V))}
    (h : mergeOne uids (some fname) cs e = some cs1) (j : Nat) (k : String)
    (hk : k ≠ fname) :
    dictGet (cs1.getD j []) k = dictGet (cs.getD j []) k := by
  obtain ⟨u, idx, hu, hidx, hshape⟩ := mergeOne_some_elim uids (some fname) cs e cs1 h
  rcases hshape with ⟨f, pk, v, hf, hpk, hv, rfl⟩ | ⟨hcon, _⟩
  · injection hf with hf
    subst hf
    by_cases hij : idx = j
    · subst hij
      by_cases hlt : idx < cs.length
      · rw [List.getD_eq_getElem?_getD, List.getElem?_set_self hlt]
        simp only [Option.getD_some]
        rw [dictGet_dictSet_ne _ _ _ _ hk]
      · rw [List.getD_eq_getElem?_getD, List.getElem?_eq_none (by simp; omega),
          List.getD_eq_getElem?_getD (l := cs), List.getElem?_eq_none (by omega)]
    · rw [List.getD_eq_getElem?_getD, List.getElem?_set_ne hij,
        ← List.getD_eq_getElem?_getD]
  · exact Option.noConfusion hcon

theorem mergeOne_gain {V : Type} [DecidableEq V] {uids : List V} {fname : String}
    {cs : List (List (String × V))} {e : List (String × V)}
    {cs1 : List (List (String × V))} {j : Nat} {w : V}
    (hnd : uids.Nodup) (h : mergeOne uids (some fname) cs e = some cs1)
    (hw : uids[j]? = some w) (hu : dictGet e "unique_id" = some w)
    (hlen : cs.length = uids.length) :
    dictGet (cs1.getD j []) fname = entryPayloadVal e := by
  obtain ⟨u, idx, hu2, hidx, hshape⟩ := mergeOne_some_elim uids (some fname) cs e cs1 h
  have huw : u = w := by
    rw [hu] at hu2
    injection hu2 with hu2
    exact hu2.symm
  subst huw
  have hidxj : idx = j := by
    rw [findIdx?_nodup_getElem uids j 0 u hnd hw] at hidx
    injection hidx with hidx
    omega
  subst hidxj
  rcases hshape with ⟨f, pk, v, hf, hpk, hv, rfl⟩ | ⟨hcon, _⟩
  · injection hf with hf
    subst hf
    have hjlen : idx < cs.length := by
      rw [hlen]
      by_contra hcon2
      rw [List.getElem?_eq_none (by omega)] at hw
      exact Option.noConfusion hw
    rw [List.getD_eq_getElem?_getD, List.getElem?_set_self hjlen]
    simp only [Option.getD_some]
    rw [dictGet_dictSet_self]
    unfold entryPayloadVal
    rw [hpk, Option.some_bind, hv]
  · exact Option.noConfusion hcon

theorem mergeFold_length {V : Type} [DecidableEq V] (uids : List V) (nf : Option String) :
    ∀ (entries cs cs' : List (List (String × V))),
      mergeFold uids nf cs entries = some cs' → cs'.length = cs.length := by
  intro entries
  induction entries with
  | nil =>
    intro cs cs' h
    unfold mergeFold at h
    injection h with h
    rw [h]
  | cons e rest ih =>
    intro cs cs' h
    unfold mergeFold at h
    cases hm : mergeOne uids nf cs e with
    | none => rw [hm, Option.none_bind] at h; exact Option.noConfusion h
    | some cs1 =>
      rw [hm, Option.some_bind] at h
      rw [ih cs1 cs' h, mergeOne_length hm]

theorem mergeFold_untouched {V : Type} [DecidableEq V] (uids : List V) (nf : Option String)
    (w : V) (j : Nat) (hw : uids[j]? = some w) :
    ∀ (entries cs cs' : List (List (String × V))),
      mergeFold uids nf cs entries = some cs' →
      (∀ e ∈ entries, dictGet e "unique_id" ≠ some w) →
      cs'.getD j [] = cs.getD j [] := by
  intro entries
  induction entries with
  | nil =>
    intro cs cs' h _
    unfold mergeFold at h
    injection h with h
    rw [h]
  | cons e rest ih =>
    intro cs cs' h hno
    unfold mergeFold at h
    cases hm : mergeOne uids nf cs e with
    | none => rw [hm, Option.none_bind] at h; exact Option.noConfusion h
    | some cs1 =>
      rw [hm, Option.some_bind] at h
      rw [ih cs1 cs' h (fun e2 he2 => hno e2 (List.mem_cons_of_mem _ he2))]
      exact mergeOne_untouched hm hw (hno e (List.mem_cons_self _ _))

theorem mergeFold_frame {V : Type} [DecidableEq V] (uids : List V) (fname : String)
    (k : String) (hk : k ≠ fname) :
    ∀ (entries cs cs' : List (List (String × V))) (j : Nat),
      mergeFold uids (some fname) cs entries = some cs' →
      dictGet (cs'.getD j []) k = dictGet (cs.getD j []) k := by
  intro entries
  induction entries with
  | nil =>
    intro cs cs' j h
    unfold mergeFold at h
    injection h with h
    rw [h]
  | cons e rest ih =>
    intro cs cs' j h
    unfold mergeFold at h
    cases hm : mergeOne uids (some fname) cs e with
    | none => rw [hm, Option.none_bind] at h; exact Option.noConfusion h
    | some cs1 =>
      rw [hm, Option.some_bind] at h
      rw [ih cs1 cs' j h]
      exact mergeOne_frame hm j k hk

theorem mergeFold_gain {V : Type} [DecidableEq V] (uids : List V) (fname : String)
    (w : V) (j : Nat) (hnd : uids.Nodup) (hw : uids[j]? = some w) :
    ∀ (entries cs cs' : List (List (String × V))),
      mergeFold uids (some fname) cs entries = some cs' →
      cs.length = uids.length →
      (∃ e ∈ entries, dictGet e "unique_id" = some w) →
      ∃ e2 ∈ entries, dictGet e2 "unique_id" = some w ∧
        dictGet (cs'.getD j []) fname = entryPayloadVal e2 := by
  intro entries
  induction entries with
  | nil =>
    intro cs cs' _ _ hmatch
    simp at hmatch
  | cons e rest ih =>
    intro cs cs' h hlen hmatch
    unfold mergeFold at h
    cases hm : mergeOne uids (some fname) cs e with
    | none => rw [hm, Option.none_bind] at h; exact Option.noConfusion h
    | some cs1 =>
      rw [hm, Option.some_bind] at h
      have hlen1 : cs1.length = uids.length := by
        rw [mergeOne_length hm]
        exact hlen
      by_cases hrest : ∃ e2 ∈ rest, dictGet e2 "unique_id" = some w
      · obtain ⟨e2, he2, heq, hgain⟩ := ih cs1 cs' h hlen1 hrest
        exact ⟨e2, List.mem_cons_of_mem _ he2, heq, hgain⟩
      · have hue : dictGet e "unique_id" = some w := by
          obtain ⟨em, hem, huem⟩ := hmatch
          rcases List.mem_cons.mp hem with rfl | hem2
          · exact huem
          · exact absurd ⟨em, hem2, huem⟩ hrest
        push_neg at hrest
        have hpres : cs'.getD j [] = cs1.getD j [] :=
          mergeFold_untouched uids (some fname) w j hw rest cs1 cs' h hrest
        refine ⟨e, List.mem_cons_self _ _, hue, ?_⟩
        rw [hpres]
        exact mergeOne_gain hnd hm hw hue hlen

theorem collectUids_map {V : Type} :
    ∀ (cs : List (List (String × V))) (us : List V), collectUids cs = some us →
      cs.map (fun c => dictGet c "unique_id") = us.map some := by
  intro cs
  induction cs with
  | nil =>
    intro us h
    unfold collectUids at h
    injection h with h
    rw [← h]
    rfl
  | cons c rest ih =>
    intro us h
    unfold collectUids at h
    cases hu : dictGet c "unique_id" with
    | none => rw [hu, Option.none_bind] at h; exact Option.noConfusion h
    | some u =>
      rw [hu, Option.some_bind] at h
      cases hr : collectUids rest with
      | none => rw [hr, Option.map_none'] at h; exact Option.noConfusion h
      | some us' =>
        rw [hr, Option.map_some'] at h
        injection h with h
        rw [← h, List.map_cons, List.map_cons, hu, ih us' hr]

/-- C5: Clusters.merge_results with a result list and a new_fieldname modifies
only the clusters matched by some entry's unique_id: a cluster with no matching
entry is left entirely unchanged, every field other than new_fieldname of every
cluster is unchanged, and a matched cluster gains, under key new_fieldname, the
payload of a matching entry. -/
theorem mergeResults_frame {V : Type} [DecidableEq V]
    (clusters entries : List (List (String × V))) (nf : Option String)
    (cs' : List (List (String × V)))
    (hrun : mergeResults clusters entries nf = some cs')
    (hnodup : (clusters.map (fun c => dictGet c "unique_id")).Nodup) :
    cs'.length = clusters.length ∧
    (∀ j, (∀ e ∈ entries,
        dictGet e "unique_id" ≠ dictGet (clusters.getD j []) "unique_id") →
      cs'.getD j [] = clusters.getD j []) ∧
    (∀ fname, nf = some fname →
      (∀ (j : Nat) (k : String), k ≠ fname →
        dictGet (cs'.getD j []) k = dictGet (clusters.getD j []) k) ∧
      (∀ j, j < clusters.length →
        (∃ e ∈ entries,
          dictGet e "unique_id" = dictGet (clusters.getD j []) "unique_id") →
        ∃ e2 ∈ entries,
          dictGet e2 "unique_id" = dictGet (clusters.getD j []) "unique_id" ∧
          dictGet (cs'.getD j []) fname = entryPayloadVal e2)) := by
  unfold mergeResults at hrun
  cases hc : collectUids clusters with
  | none => rw [hc, Option.none_bind] at hrun; exact Option.noConfusion hrun
  | some uids =>
    rw [hc, Option.some_bind] at hrun
    have hmap := collectUids_map clusters uids hc
    have hlens : clusters.length = uids.length := by
      have := congrArg List.length hmap
      simpa using this
    have hlen' : cs'.length = clusters.length := mergeFold_length uids nf entries clusters cs' hrun
    have hjth : ∀ j, j < clusters.length → ∃ c w, clusters[j]? = some c ∧
        dictGet c "unique_id" = some w ∧ uids[j]? = some w := by
      intro j hj
      have h1 : (clusters.map (fun c => dictGet c "unique_id"))[j]? = (uids.map some)[j]? := by
        rw [hmap]
      rw [List.getElem?_map, List.getElem?_map] at h1
      cases hcj : clusters[j]? with
      | none =>
        rw [List.getElem?_eq_getElem hj] at hcj
        exact Option.noConfusion hcj
      | some c =>
        cases huj : uids[j]? with
        | none =>
          rw [hcj, huj] at h1
          simp at h1
        | some w =>
          rw [hcj, huj] at h1
          simp only [Option.map_some'] at h1
          injection h1 with h1
          exact ⟨c, w, rfl, h1, rfl⟩
    refine ⟨hlen', ?_, ?_⟩
    · intro j hno
      by_cases hj : j < clusters.length
      · obtain ⟨c, w, hcj, hcw, huj⟩ := hjth j hj
        have hgd : clusters.getD j [] = c := by
          rw [List.getD_eq_getElem?_getD, hcj]
          rfl
        apply mergeFold_untouched uids nf w j huj entries clusters cs' hrun
        intro e he
        have := hno e he
        rw [hgd, hcw] at this
        exact this
      · rw [List.getD_eq_getElem?_getD, List.getElem?_eq_none (by omega),
          List.getD_eq_getElem?_getD (l := clusters), List.getElem?_eq_none (by omega)]
    · intro fname hnf
      subst hnf
      constructor
      · intro j k hk
        exact mergeFold_frame uids fname k hk entries clusters cs' j hrun
      · intro j hj hex
        obtain ⟨c, w, hcj, hcw, huj⟩ := hjth j hj
        have hgd : clusters.getD j [] = c := by
          rw [List.getD_eq_getElem?_getD, hcj]
          rfl
        have hnd2 : uids.Nodup := by
          rw [hmap] at hnodup
          exact hnodup.of_map
        rw [hgd, hcw] at hex ⊢
        exact mergeFold_gain uids fname w j hnd2 huj entries clusters cs' hrun
          hlens hex

/-- C5 witness: merging one entry for unit 2 into two clusters adds newf to
cluster 2 and leaves cluster 1 untouched. -/
theorem mergeResults_frame_witness :
    (mergeResults [[("unique_id", 1), ("a", 10)], [("unique_id", 2), ("a", 20)]]
        [[("unique_id", 2), ("res", 99)]] (some "newf") =
      some [[("unique_id", 1), ("a", 10)], [("unique_id", 2), ("a", 20), ("newf", 99)]] ∧
     (([[("unique_id", 1), ("a", 10)], [("unique_id", 2), ("a", 20)]] :
        List (List (String × Nat))).map (fun c => dictGet c "unique_id")).Nodup) ∧
    (([[("unique_id", 1), ("a", 10)], [("unique_id", 2), ("a", 20), ("newf", 99)]] :
        List (List (String × Nat))).length =
      ([[("unique_id", 1), ("a", 10)], [("unique_id", 2), ("a", 20)]] :
        List (List (String × Nat))).length) := by
  refine ⟨⟨by decide, by decide⟩, ?_⟩
  have h := mergeResults_frame
    [[("unique_id", 1), ("a", 10)], [("unique_id", 2), ("a", 20)]]
    [[("unique_id", 2), ("res", 99)]] (some "newf")
    [[("unique_id", 1), ("a", 10)], [("unique_id", 2), ("a", 20), ("newf", 99)]]
    (by decide) (by decide)
  exact h.1

end Hierarchy
